import Mathlib

/-!
# Verification of the CV ingestion and analysis pipeline

A shallow embedding, in Lean 4, of the CV-processing subsystem of the
academic-advisor backend:
`app/services/skill_extractor.py` (skill candidate generation, fuzzy
merging, confidence scoring, ranking) and `app/services/cv_parser.py`
(file-format dispatch, PDF/OCR text extraction control flow, section
segmentation), together with the upload validation of `app/api/v1/cv.py`.

Python strings are modelled as `String`/`List Char`, Python ints as `Nat`
(all quantities involved are non-negative), the one non-integral constant
(the `1.2` ranking multiplier) as the rational `6/5`, Python dicts (which
preserve insertion order) as ordered association lists, and exceptions as
`Except`.  External library collaborators (the fuzzy-matching library, the
OCR engine) enter as explicit function parameters; a concrete executable
model of `fuzz.ratio` is supplied for witnesses.  All inputs exercised are
ASCII, so ASCII case-folding faithfully models `str.lower`.
-/

namespace CVPipeline

/-! ## Basic string utilities (models of the Python built-ins used) -/

/-- ASCII lower-casing of one character (model of `str.lower` on the ASCII
texts handled by the pipeline). -/
def asciiLower (c : Char) : Char :=
  if 65 ≤ c.toNat ∧ c.toNat ≤ 90 then Char.ofNat (c.toNat + 32) else c

/-- Lower-case a character list. -/
def lowerL (cs : List Char) : List Char := cs.map asciiLower

/-- Lower-case a string, as a string (model of `str.lower`). -/
def lowerS (s : String) : String := String.mk (lowerL s.data)

/-- Word character for the regex `\b` boundary: `[A-Za-z0-9_]`
(the ASCII core of `\w`). -/
def isWordChar (c : Char) : Bool :=
  (97 ≤ c.toNat && c.toNat ≤ 122) || (65 ≤ c.toNat && c.toNat ≤ 90) ||
  (48 ≤ c.toNat && c.toNat ≤ 57) || c = '_'

/-- Python `\s` / `str.strip` whitespace: space, tab, newline, carriage
return, vertical tab, form feed. -/
def isSpacePy (c : Char) : Bool :=
  c = ' ' || c = '\t' || c = '\n' || c = '\x0d' || c = '\x0b' || c = '\x0c'

/-- `needle` occurs in `hay` starting at index `i`. -/
def occursAt (needle hay : List Char) (i : Nat) : Bool :=
  needle.isPrefixOf (hay.drop i)

/-- Substring containment (model of Python `in` on strings). -/
def containsSub (needle hay : List Char) : Bool :=
  (List.range (hay.length + 1)).any (fun i => occursAt needle hay i)

/-- Core of the non-overlapping substring count, needle `n :: ns` fixed.
Fuel-driven structural recursion (the haystack shrinks by at least one
character per step, so `fuel = hay.length` never runs out). -/
def countSubCoreF (n : Char) (ns : List Char) : Nat → List Char → Nat
  | 0, _ => 0
  | _ + 1, [] => 0
  | fuel + 1, c :: rest =>
    if (n :: ns).isPrefixOf (c :: rest) then
      1 + countSubCoreF n ns fuel (rest.drop ns.length)
    else
      countSubCoreF n ns fuel rest

/-- Model of Python `str.count`: non-overlapping occurrences scanned from
the left; an empty needle counts `len + 1` as in Python. -/
def pyCount (needle hay : List Char) : Nat :=
  match needle with
  | [] => hay.length + 1
  | n :: ns => countSubCoreF n ns hay.length hay

/-- Is the character at index `i` (if any) a word character? -/
def wordAt (hay : List Char) (i : Nat) : Bool :=
  match hay.get? i with
  | some c => isWordChar c
  | none => false

/-- The regex word boundary `\b` holds at position `p` of `hay`. -/
def wbAt (hay : List Char) (p : Nat) : Bool :=
  (if p = 0 then false else wordAt hay (p - 1)) != wordAt hay p

/-- Split a character list on a delimiter predicate, keeping empty pieces
(model of `re.split` on a single-character class, and of `str.split`). -/
def splitOnP (p : Char → Bool) : List Char → List (List Char)
  | [] => [[]]
  | c :: rest =>
    if p c then [] :: splitOnP p rest
    else
      match splitOnP p rest with
      | [] => [[c]]
      | t :: ts => (c :: t) :: ts

/-- Model of Python `str.strip()`: drop whitespace from both ends. -/
def stripPy (cs : List Char) : List Char :=
  ((cs.dropWhile isSpacePy).reverse.dropWhile isSpacePy).reverse

/-- Join strings with a newline between items (line 146 of the parser). -/
def joinNL (ss : List String) : String := String.intercalate "\n" ss

/-- Ordered-dictionary assignment (model of `d[k] = v` on a Python dict):
overwrite in place when the key is present, append otherwise. -/
def dictSet {β : Type} (acc : List (String × β)) (k : String) (v : β) :
    List (String × β) :=
  if acc.any (fun kv => kv.1 = k) then
    acc.map (fun kv => if kv.1 = k then (kv.1, v) else kv)
  else
    acc ++ [(k, v)]

/-- Ordered-dictionary lookup (model of `d[k]` / `d.get(k)`). -/
def lookupD {β : Type} (acc : List (String × β)) (k : String) : Option β :=
  (acc.find? (fun kv => kv.1 = k)).map (fun kv => kv.2)

/-! ## Data model: skill candidates and merged skills

Python passes skill candidates around as dicts with optional keys; the
`Skill` structure carries every key that appears anywhere in the pipeline,
with `Option`/`[]`/`0` defaults standing for an absent key (observationally
equivalent everywhere the pipeline reads them: the `category` lookup
yields `None`, `len(sources) * 10` adds `0`, …). -/

structure Skill where
  name : String
  category : Option String := none
  type : String := ""
  matched_text : Option String := none
  context : Option String := none
  sources : List String := []
  confidence : Nat := 0
  importance_score : ℚ := 0
deriving DecidableEq, Repr

/-- One entry of the skill taxonomy: canonical name, aliases, optional
category, importance weight (`SkillExtractor.load_skill_database`). -/
structure DbEntry where
  cname : String
  aliases : List String
  category : Option String
  importance : Nat
deriving DecidableEq, Repr

/-- The `technical_skills` table of `load_skill_database`. -/
def technical_skills : List DbEntry :=
  [⟨"Python", ["python3", "py"], some "programming", 10⟩,
   ⟨"JavaScript", ["js", "es6"], some "programming", 9⟩,
   ⟨"React", ["react.js", "reactjs"], some "web", 8⟩,
   ⟨"Machine Learning", ["ml", "machine-learning"], some "ai", 9⟩,
   ⟨"Docker", ["containerization"], some "devops", 7⟩]

/-- The `soft_skills` table of `load_skill_database` (entries carry no
`category` key). -/
def soft_skills : List DbEntry :=
  [⟨"Leadership", ["team lead", "management"], none, 8⟩,
   ⟨"Communication", ["interpersonal"], none, 9⟩]

/-- The `certifications` table of `load_skill_database`. -/
def certifications : List DbEntry :=
  [⟨"AWS Certified", ["aws certification"], none, 8⟩,
   ⟨"PMP", ["project management professional"], none, 7⟩]

/-! ## Rule-based extraction (`SkillExtractor.extract_rule_based`) -/

/-- `SkillExtractor.find_skill_in_text`: the regex built from `\b`, the
escaped lower-cased skill, and `\b`, searched in the (already
lower-cased) text — the lower-cased skill occurs literally at some
position with a word boundary on each side. -/
def find_skill_in_text (skill : String) (textLower : List Char) : Bool :=
  let needle := lowerL skill.data
  (List.range (textLower.length + 1)).any fun i =>
    occursAt needle textLower i && wbAt textLower i &&
      wbAt textLower (i + needle.length)

/-- The candidate dict built at lines 98–103/109–114 of
`skill_extractor.py`: canonical name, the entry category with the table
tag as fallback, the table tag as `type`, and the string
that literally matched. -/
def mkRuleSkill (e : DbEntry) (tag : String) (m : String) : Skill :=
  { name := e.cname, category := some (e.category.getD tag), type := tag,
    matched_text := some m }

/-- The alias loop (lines 107–115): return the first alias that matches
(`break`), if any. -/
def scanAliases (textLower : List Char) : List String → Option String
  | [] => none
  | a :: as_ =>
    if find_skill_in_text a textLower then some a
    else scanAliases textLower as_

/-- The per-table entry loop of `extract_rule_based`: canonical name first
(`continue` on success), then the aliases. -/
def tableScan (tag : String) (textLower : List Char) :
    List DbEntry → List Skill
  | [] => []
  | e :: es =>
    if find_skill_in_text e.cname textLower then
      mkRuleSkill e tag e.cname :: tableScan tag textLower es
    else
      match scanAliases textLower e.aliases with
      | some a => mkRuleSkill e tag a :: tableScan tag textLower es
      | none => tableScan tag textLower es

/-- `SkillExtractor.extract_rule_based`: scans the `technical_skills`
table (tag `technical`) and the `soft_skills` table (tag `soft`) —
and no other table — against the lower-cased text. -/
def extract_rule_based (text : String) : List Skill :=
  let tl := lowerL text.data
  tableScan "technical" tl technical_skills ++ tableScan "soft" tl soft_skills

/-! ## Pattern-based extraction (`SkillExtractor.extract_pattern_based`)

Model of `re.finditer` for the one pattern used,
`(?:skills|expertise|competencies|technologies)[:\s]*([^\n]+(?:\n[^\n]+)*)`
with `re.IGNORECASE`: scan left to right; at a position where one of the
four keywords matches case-insensitively, consume `[:\s]*` greedily
(backtracking just enough for the group to start on an existing
non-newline character), then take group 1 = the rest of the line plus
every immediately following non-empty line; continue scanning after the
match. -/

/-- Does lower-cased `kw` match `hay` case-insensitively at its head? -/
def kwAtHead (kw : List Char) (hay : List Char) : Bool :=
  lowerL (hay.take kw.length) == kw

/-- The four alternatives of the section-label group, in pattern order
(their first letters differ, so at most one matches at a position). -/
def sectionKeywords : List (List Char) :=
  ["skills".data, "expertise".data, "competencies".data, "technologies".data]

/-- A character of the class `[:\s]`. -/
def isSepChar (c : Char) : Bool := c = ':' || isSpacePy c

/-- Greedy `[:\s]*` with the minimal backtracking needed for
`[^\n]+` to start: the chosen group start offset into `rest`,
or `none` when the whole position fails. -/
def chooseStart (rest : List Char) : Option Nat :=
  let m := (rest.takeWhile isSepChar).length
  if m < rest.length then some m
  else ((List.range m).reverse).find? fun k => rest.get? k != some '\n'

/-- Group 1 body `[^\n]+(?:\n[^\n]+)*` from the current position
(first character known non-newline): the returned pair is
(group characters, remaining input after the match). Fuel-driven. -/
def takeGroupF : Nat → List Char → List Char × List Char
  | 0, cs => ([], cs)
  | fuel + 1, cs =>
    let line := cs.takeWhile (· != '\n')
    let rest := cs.dropWhile (· != '\n')
    match rest with
    | '\n' :: d :: ds =>
      if d != '\n' then
        let (g, r) := takeGroupF fuel (d :: ds)
        (line ++ '\n' :: g, r)
      else (line, rest)
    | _ => (line, rest)

/-- Attempt the whole pattern at the current position; on success return
(group 1, input remaining after the match). -/
def matchAt (cs : List Char) : Option (List Char × List Char) :=
  match sectionKeywords.find? (fun kw => kwAtHead kw cs) with
  | none => none
  | some kw =>
    let rest := cs.drop kw.length
    match chooseStart rest with
    | none => none
    | some k =>
      let (g, r) := takeGroupF (rest.drop k).length (rest.drop k)
      some (g, r)

/-- `re.finditer` driver: all group-1 texts, left to right,
non-overlapping. Fuel-driven (each match consumes at least the keyword). -/
def scanMatchesF : Nat → List Char → List (List Char)
  | 0, _ => []
  | _ + 1, [] => []
  | fuel + 1, c :: rest =>
    match matchAt (c :: rest) with
    | some (g, remaining) => g :: scanMatchesF fuel remaining
    | none => scanMatchesF fuel rest

/-- All group-1 texts of the skills-section pattern in `cs`. -/
def scanMatches (cs : List Char) : List (List Char) :=
  scanMatchesF cs.length cs

/-- The delimiter class `[,;|•·\n]` of the candidate split. -/
def isDelim (c : Char) : Bool :=
  c = ',' || c = ';' || c = '|' || c = '•' || c = '·' || c = '\n'

/-- The inner loop of `extract_pattern_based` (lines 171–178): strip each
delimited item and keep it when `2 < len(item) < 50`. -/
def patternItems (g : List Char) : List Skill :=
  (splitOnP isDelim g).filterMap fun item =>
    let s := stripPy item
    if 2 < s.length ∧ s.length < 50 then
      some { name := String.mk s, type := "pattern_extracted" }
    else none

/-- `SkillExtractor.extract_pattern_based`.  (The source also stores the
first 100 characters of the full match as `context`; no claim reads it and
it is omitted — `context` stays at its absent-key default.) -/
def extract_pattern_based (text : String) : List Skill :=
  (scanMatches text.data).flatMap patternItems

/-! ## Merge / dedup (`SkillExtractor.combine_skills`)

The fuzzy similarity `fuzz.ratio` comes from the external `fuzzywuzzy`
library, so the merge step is parametrised by a
`ratio : String → String → Nat`; a concrete executable model of
`fuzz.ratio` (`fuzzRatio` below) instantiates it in witnesses.
The Python dict `combined` is an ordered association list from the
lower-cased name (the dict key) to the stored skill dict. -/

/-- One iteration of the candidate loop of `combine_skills`
(lines 189–205): look for the first already-accepted key whose similarity
to the new key exceeds 85; on a hit append the candidate's `type` to that
entry's `sources`; otherwise insert the candidate under its own key with
`sources = [type]`. -/
def combineStep (ratio : String → String → Nat)
    (acc : List (String × Skill)) (skill : Skill) : List (String × Skill) :=
  let key := lowerS skill.name
  match acc.find? (fun kv => 85 < ratio key kv.1) with
  | some kv =>
    acc.map fun kv' =>
      if kv'.1 = kv.1 then
        (kv'.1, { kv'.2 with sources := kv'.2.sources ++ [skill.type] })
      else kv'
  | none => dictSet acc key { skill with sources := [skill.type] }

/-- `SkillExtractor.combine_skills`: fold the concatenated candidate lists
through `combineStep` and return the dict's values in insertion order. -/
def combine_skills (ratio : String → String → Nat)
    (skillLists : List (List Skill)) : List Skill :=
  ((skillLists.flatten).foldl (combineStep ratio) []).map (fun kv => kv.2)

/-! ## Confidence scoring (`SkillExtractor.calculate_confidence`) -/

/-- The proficiency qualifiers of line 228. -/
def proficiency_terms : List String :=
  ["expert", "advanced", "proficient", "experienced", "skilled"]

/-- Lines 229–232: some qualifier occurs immediately adjacent (one space)
to the lower-cased skill name, in either order. -/
def proficiencyHit (skillLower : List Char) (textLower : List Char) : Bool :=
  proficiency_terms.any fun t =>
    containsSub (t.data ++ ' ' :: skillLower) textLower ||
    containsSub (skillLower ++ ' ' :: t.data) textLower

/-- Line 235: the `re.search` of `skills`, then `.*` under `re.DOTALL`,
then the escaped skill name — `skills` occurs at some index `i` and the
skill name at some index at least `i + 6` (`.*` spans newlines). -/
def skillsSectionHit (skillLower : List Char) (textLower : List Char) : Bool :=
  (List.range (textLower.length + 1)).any fun i =>
    occursAt "skills".data textLower i &&
      containsSub skillLower (textLower.drop (i + 6))

/-- The per-skill body of `calculate_confidence` (lines 215–238), with the
running `confidence` accumulator made explicit. -/
def scoreSkill (textLower : List Char) (s : Skill) : Skill :=
  let skillLower := lowerL s.name.data
  let c0 := 60
  let c1 := c0 + min (pyCount skillLower textLower * 5) 20
  let c2 := c1 + s.sources.length * 10
  let c3 := c2 + (if proficiencyHit skillLower textLower then 15 else 0)
  let c4 := c3 + (if skillsSectionHit skillLower textLower then 10 else 0)
  { s with confidence := min c4 95 }

/-- `SkillExtractor.calculate_confidence` (the Python loop mutates each
dict in place and returns the same list). -/
def calculate_confidence (skills : List Skill) (text : String) : List Skill :=
  skills.map (scoreSkill (lowerL text.data))

/-! ## Ranking (`SkillExtractor.rank_skills`) -/

/-- Lines 247–257: confidence, times `1.2` (the rational `6/5`) when the
category is technical, plus `importance * 5` when the name is a key of the
`technical_skills` table. -/
def importanceOf (s : Skill) : ℚ :=
  let i0 : ℚ := s.confidence
  let i1 := if s.category ∈ [some "programming", some "web",
                             some "data", some "ai"] then i0 * (6 / 5) else i0
  match technical_skills.find? (fun e => e.cname = s.name) with
  | some e => i1 + e.importance * 5
  | none => i1

/-- The sort order of line 262 (`key=importance_score, reverse=True`). -/
def rankGE (a b : Skill) : Prop := b.importance_score ≤ a.importance_score

instance : DecidableRel rankGE := fun a b =>
  inferInstanceAs (Decidable (b.importance_score ≤ a.importance_score))

instance : IsTotal Skill rankGE :=
  ⟨fun a b => (le_total b.importance_score a.importance_score)⟩

instance : IsTrans Skill rankGE :=
  ⟨fun _ _ _ h1 h2 => le_trans h2 h1⟩

/-- `SkillExtractor.rank_skills`: store the importance score on every
skill, then sort descending by it.  Python's `list.sort` is a stable sort;
`List.insertionSort` with the non-strict descending order is stable in the
same sense (an element is inserted before every equal-scored element to
its right), so the two agree on every input. -/
def rank_skills (skills : List Skill) : List Skill :=
  List.insertionSort rankGE
    (skills.map fun s => { s with importance_score := importanceOf s })

/-! ## The full pipeline (`SkillExtractor.extract`)

The repository ships no `app/ml/models/*.pkl` artifacts, so the
constructor's `joblib.load` raises, `self.model = None`, and
`extract_ml_based` contributes the empty list (`ml_skills = [] `). -/

/-- `SkillExtractor.extract` with the model-based generator degraded to
empty output (no trained model in the repository). -/
def extract (ratio : String → String → Nat) (text : String) : List Skill :=
  rank_skills (calculate_confidence
    (combine_skills ratio [extract_rule_based text, [], extract_pattern_based text])
    text)

/-! ## A concrete model of `fuzz.ratio`

`fuzzywuzzy.fuzz.ratio` computes `round(200 * M / (|a| + |b|))` where `M`
is the number of matched characters (the longest common subsequence for
the simple strings arising here).  The model uses the floor instead of
Python's round-half-even; every concrete comparison made with it in this
development is far from the `> 85` decision boundary, so the rounding mode
never changes a merge decision. -/

/-- Longest-common-subsequence length, fuel-driven (each step removes at
least one character from one of the two lists, so
`fuel = a.length + b.length` never runs out). -/
def lcsF : Nat → List Char → List Char → Nat
  | 0, _, _ => 0
  | _ + 1, [], _ => 0
  | _ + 1, _ :: _, [] => 0
  | fuel + 1, a :: as_, b :: bs =>
    if a = b then lcsF fuel as_ bs + 1
    else max (lcsF fuel as_ (b :: bs)) (lcsF fuel (a :: as_) bs)

/-- Longest-common-subsequence length. -/
def lcs (a b : List Char) : Nat := lcsF (a.length + b.length) a b

/-- Executable model of `fuzz.ratio` on lower-cased names. -/
def fuzzRatio (a b : String) : Nat :=
  let t := a.length + b.length
  if t = 0 then 100 else 200 * lcs a.data b.data / t

/-! ## Section segmentation (`CVParser.extract_sections`) -/

/-- The fixed header vocabulary (`CVParser.__init__`), in order. -/
def section_headers : List String :=
  ["education", "experience", "skills", "projects",
   "certifications", "publications", "summary", "objective",
   "work experience", "professional experience", "employment",
   "academic background", "technical skills", "achievements"]

/-- The header test of lines 139–152: the stripped lower-cased line
starts with, ends with, or (after removing every colon and stripping)
equals a vocabulary label; the first matching label wins (`break`). -/
def headerOf (line : String) : Option String :=
  let ll := stripPy (lowerL line.data)
  section_headers.find? fun h =>
    h.data.isPrefixOf ll || h.data.isSuffixOf ll ||
      h.data == stripPy (ll.filter (· != ':'))

/-- `header.replace(' ', '_')` of line 149. -/
def underscore (h : String) : String :=
  String.mk (h.data.map fun c => if c = ' ' then '_' else c)

/-- The line loop of `extract_sections`, state = (sections dict, current
section key, body buffer). -/
def sectionsAux : List String → List (String × String) → String →
    List String → List (String × String)
  | [], acc, cur, buf =>
    if buf ≠ [] then dictSet acc cur (joinNL buf) else acc
  | l :: ls, acc, cur, buf =>
    match headerOf l with
    | some h =>
      let acc' := if buf ≠ [] then dictSet acc cur (joinNL buf) else acc
      sectionsAux ls acc' (underscore h) []
    | none =>
      if stripPy l.data ≠ [] then sectionsAux ls acc cur (buf ++ [l])
      else sectionsAux ls acc cur buf

/-- `CVParser.extract_sections`: split on newlines, start in the implicit
`header` section, run the loop, flush the final buffer. -/
def extract_sections (text : String) : List (String × String) :=
  let lines := (splitOnP (· = '\n') text.data).map String.mk
  sectionsAux lines [] "header" []

/-- Specification-side view of the same loop: the list of
(section key, body lines) pairs in flush order, one pair per header
occurrence whose body is non-empty (plus the leading implicit `header`
block and the final flush).  `extract_sections` is compared against this
in the section-segmenter theorems. -/
def blocksAux : List String → String → List String →
    List (String × List String)
  | [], cur, buf => if buf ≠ [] then [(cur, buf)] else []
  | l :: ls, cur, buf =>
    match headerOf l with
    | some h =>
      (if buf ≠ [] then [(cur, buf)] else []) ++ blocksAux ls (underscore h) []
    | none =>
      if stripPy l.data ≠ [] then blocksAux ls cur (buf ++ [l])
      else blocksAux ls cur buf

/-- All flushed (key, body lines) blocks of a text, in order. -/
def sectionBlocks (text : String) : List (String × List String) :=
  blocksAux ((splitOnP (· = '\n') text.data).map String.mk) "header" []

/-! ## Format dispatch (`CVParser.parse`) and upload validation -/

/-- Which parser `CVParser.parse` dispatches to. -/
inductive ParseRoute where
  | pdf | docx | txt
deriving DecidableEq, Repr

/-- Line 24: split the filename on dots, take the last piece, lower-case
it. -/
def fileExtension (filename : String) : String :=
  String.mk (lowerL ((splitOnP (· = '.') filename.data).getLastD []))

/-- `CVParser.parse` (lines 20–33): dispatch on the extension, raising
`ValueError` — modelled as `Except.error` carrying the extension — for
anything outside pdf/doc/docx/txt.  The byte content is irrelevant to the
dispatch decision. -/
def parse (_content : List Nat) (filename : String) : Except String ParseRoute :=
  let ext := fileExtension filename
  if ext = "pdf" then .ok .pdf
  else if ext = "doc" ∨ ext = "docx" then .ok .docx
  else if ext = "txt" then .ok .txt
  else .error ext

/-- `settings.ALLOWED_FILE_TYPES` (`app/config.py` line 51). -/
def allowed_file_types : List String := [".pdf", ".doc", ".docx"]

/-- Modelled from the spec: `validate_file` of `app/utils/validators.py`
is absent from the source tree (only its call site in `app/api/v1/cv.py`
remains).  Per §6 of the spec the upload constraint is
"extension ∈ allowed types", with the allowed list passed from
`settings.ALLOWED_FILE_TYPES`; the validator accepts exactly the
filenames whose lower-cased dotted extension is in that list. -/
def validate_file (filename : String) (allowedTypes : List String) : Bool :=
  allowedTypes.contains ("." ++ fileExtension filename)

/-- Outcome of the upload endpoint `upload_cv` (`app/api/v1/cv.py`):
either a synchronous rejection (no upload id generated, no background
task enqueued) or acceptance with a processing job created. -/
inductive UploadOutcome where
  | rejected (code : String)
  | accepted (jobCreated : Bool)
deriving DecidableEq, Repr

/-- The control flow of `upload_cv`: a failed validation raises
`CustomException(code="INVALID_FILE")` before the upload id is generated
and before `background_tasks.add_task` runs; otherwise the background
processing task (the job) is created. -/
def upload_cv (filename : String) : UploadOutcome :=
  if validate_file filename allowed_file_types then .accepted true
  else .rejected "INVALID_FILE"

/-! ## PDF extraction with OCR (`CVParser.parse_pdf`, lines 58–82)

The PyMuPDF phase: one `try` block wraps the whole page loop, including
every OCR call.  A page contributes its text layer; when the page has
embedded images and the text accumulated so far is blank, each image of
acceptable colorspace is OCRed and its text appended.  The OCR engine is
an external collaborator, modelled as `ocr : Img → Except Unit String`;
an `Except.error` models `pytesseract` raising.  The accumulated `text`
variable survives the exception (the `except` clause only logs), so the
phase returns whatever text had been accumulated when the exception was
raised. -/

/-- An embedded raster image: identifier plus the
`pix.n - pix.alpha < 4` (GRAY-or-RGB) test outcome. -/
structure Img where
  xref : Nat
  colorOk : Bool
deriving DecidableEq, Repr

/-- One page: extracted text layer and embedded images. -/
structure Page where
  text : String
  images : List Img
deriving DecidableEq, Repr

/-- The inner image loop (lines 70–78).  `Except.error t` models the
exception escaping the loop with accumulated text `t`. -/
def runImgs (ocr : Img → Except Unit String) :
    List Img → String → Except String String
  | [], t => .ok t
  | img :: imgs, t =>
    if img.colorOk then
      match ocr img with
      | .ok s => runImgs ocr imgs (t ++ s ++ "\n")
      | .error _ => .error t
    else runImgs ocr imgs t

/-- The page loop (lines 62–78). -/
def runPages (ocr : Img → Except Unit String) :
    List Page → String → Except String String
  | [], t => .ok t
  | p :: ps, t =>
    let t1 := t ++ p.text ++ "\n"
    if p.images ≠ [] ∧ stripPy t1.data = [] then
      match runImgs ocr p.images t1 with
      | .ok t2 => runPages ocr ps t2
      | .error t2 => .error t2
    else runPages ocr ps t1

/-- The whole PyMuPDF phase including its `try`/`except`: the text
accumulated when the loop finishes or when the first exception escapes. -/
def muPdfText (ocr : Img → Except Unit String) (pages : List Page)
    (t0 : String) : String :=
  match runPages ocr pages t0 with
  | .ok t => t
  | .error t => t

/-! ## Claim-side reference definitions

These follow the wording of the specification claims (not the source) and
exist only to be compared against the source-derived functions above. -/

/-- Number of distinct entries of a list (first-occurrence fold). -/
def distinctCount (l : List String) : Nat :=
  (l.foldl (fun acc x => if x ∈ acc then acc else acc ++ [x]) []).length

/-- The confidence formula as the spec claim reads it: the
source-strategy bonus counts *distinct* strategies, not repeated
contributions. -/
def claimConfidence (s : Skill) (text : String) : Nat :=
  let tl := lowerL text.data
  let sl := lowerL s.name.data
  min (60 + min (5 * pyCount sl tl) 20 + 10 * distinctCount s.sources
    + (if proficiencyHit sl tl then 15 else 0)
    + (if skillsSectionHit sl tl then 10 else 0)) 95

/-- The complete taxonomy, all three tables. -/
def all_taxonomy : List DbEntry :=
  technical_skills ++ soft_skills ++ certifications

/-- The ranking score as the spec claim reads it: *any* recognized
canonical taxonomy entry (in any table) contributes its
importance weight × 5. -/
def claimRankScore (s : Skill) : ℚ :=
  let i0 : ℚ := s.confidence
  let i1 := if s.category ∈ [some "programming", some "web",
                             some "data", some "ai"] then i0 * (6 / 5) else i0
  match all_taxonomy.find? (fun e => e.cname = s.name) with
  | some e => i1 + 5 * e.importance
  | none => i1

/-! ## Concrete fixtures used by counterexamples and witnesses -/

/-- The worked example text of spec §8. -/
def c1Text : String :=
  "Experienced Python developer, expert in React, AWS Certified."

/-- Two pattern-extracted candidates whose names are 92-similar, so the
second merges into the first within a single strategy. -/
def candPython : Skill := { name := "python", type := "pattern_extracted" }

/-- See `candPython`. -/
def candPythons : Skill := { name := "pythons", type := "pattern_extracted" }

/-- A rule-extracted candidate used to exercise the merge/score stages. -/
def candPythonRule : Skill :=
  { name := "Python", category := some "programming", type := "technical",
    matched_text := some "Python" }

/-- A merged soft skill: its name is a canonical taxonomy entry
(`soft_skills` table, importance 8) of non-technical category. -/
def leadershipSkill : Skill :=
  { name := "Leadership", category := some "soft", type := "soft",
    sources := ["soft"], confidence := 80 }

/-- An OCR collaborator that fails on the image with `xref = 0` and reads
`"Java"` from every other image. -/
def ocrJava : Img → Except Unit String :=
  fun i => if i.xref = 0 then .error () else .ok "Java"

/-- A one-page scanned document: no text layer, two GRAY/RGB images. -/
def scannedPage : Page := { text := "", images := [⟨0, true⟩, ⟨1, true⟩] }

/-- Is an image's OCR step non-aborting (skipped for colorspace, or OCR
succeeds)? -/
def goodImg (ocr : Img → Except Unit String) (i : Img) : Bool :=
  !i.colorOk ||
    match ocr i with
    | .ok _ => true
    | .error _ => false

/-- The text one image appends during the OCR loop. -/
def imgContrib (ocr : Img → Except Unit String) (i : Img) : String :=
  if i.colorOk then
    match ocr i with
    | .ok s => s ++ "\n"
    | .error _ => ""
  else ""

/-- Concatenation of a list of strings (right fold, so that
`concatAll (a :: l) = a ++ concatAll l` holds definitionally). -/
def concatAll (ss : List String) : String := ss.foldr (· ++ ·) ""

/-- `Except.error`-ness of a parse outcome. -/
def isErr {α β : Type} : Except α β → Bool
  | .error _ => true
  | .ok _ => false

instance : Inhabited Skill := ⟨{ name := "" }⟩

/-- A rule-extracted React candidate (as `extract_rule_based` emits it). -/
def candReactRule : Skill :=
  { name := "React", category := some "web", type := "technical",
    matched_text := some "React" }

/-- The Python skill after merge and confidence scoring on the §8 example
text (confidence 60 + 5 frequency + 10 one source + 15 adjacent
`experienced`). -/
def pyScored : Skill :=
  { name := "Python", category := some "programming", type := "technical",
    matched_text := some "Python", sources := ["technical"], confidence := 90 }

/-- The React skill after merge and confidence scoring on the §8 example
text (no adjacency bonus: the text says `expert in React`). -/
def reScored : Skill :=
  { name := "React", category := some "web", type := "technical",
    matched_text := some "React", sources := ["technical"], confidence := 75 }

/-- `pyScored` after ranking: 90 × 1.2 + 10 × 5 = 158. -/
def pyRanked : Skill :=
  { pyScored with importance_score := 158 }

/-- `reScored` after ranking: 75 × 1.2 + 8 × 5 = 130. -/
def reRanked : Skill :=
  { reScored with importance_score := 130 }

/-- `leadershipSkill` after ranking: the code leaves its score at its
bare confidence (the importance-weight boost only consults the
`technical_skills` table). -/
def leadershipRanked : Skill :=
  { leadershipSkill with importance_score := 80 }

/-- `candPythonRule` scored in isolation (no `sources` key: 60 + 5). -/
def candPythonScored : Skill :=
  { name := "Python", category := some "programming", type := "technical",
    matched_text := some "Python", confidence := 65 }

/-- `candPythonRule` after merge and scoring against the text
`"python"` (60 + 5 frequency + 10 one source). -/
def candPythonMerged : Skill :=
  { name := "Python", category := some "programming", type := "technical",
    matched_text := some "Python", sources := ["technical"], confidence := 75 }

/-- A pattern-extracted candidate of `extract_pattern_based`. -/
def patPython : Skill := { name := "Python", type := "pattern_extracted" }

/-- A text whose `skills` header occurs twice with different bodies. -/
def overwriteText : String := "skills\nPython\nskills\nDocker"

/-- A page following the scanned page, to exercise page-loop abort. -/
def pageTail : Page := { text := "Tail", images := [] }

/-- What `extract_rule_based` produces for one taxonomy entry: the first
string among {canonical name, aliases…} matching the text as a whole
word, mapped to its candidate dict. -/
def ruleHit (tag : String) (tl : List Char) (e : DbEntry) : Option Skill :=
  ((e.cname :: e.aliases).find? (fun m => find_skill_in_text m tl)).map
    (mkRuleSkill e tag)

/-- Invariant of the `combine_skills` accumulator dict: each key is the
lower-cased name of its skill, keys accepted later are at most 85-similar
to every earlier key, and every stored skill has a non-empty source
list. -/
def CombInv (ratio : String → String → Nat)
    (acc : List (String × Skill)) : Prop :=
  (∀ kv ∈ acc, kv.1 = lowerS kv.2.name) ∧
  acc.Pairwise (fun a b => ratio b.1 a.1 ≤ 85) ∧
  (∀ kv ∈ acc, kv.2.sources ≠ [])

/-! ## Supporting lemmas -/

/-- The fuelled LCS is symmetric at every fuel value. -/
theorem lcsF_comm (fuel : Nat) (a b : List Char) :
    lcsF fuel a b = lcsF fuel b a := by
  induction fuel generalizing a b with
  | zero => rfl
  | succ fuel ih =>
    cases a with
    | nil => cases b <;> rfl
    | cons x xs =>
      cases b with
      | nil => rfl
      | cons y ys =>
        by_cases h : x = y
        · subst h
          simp [lcsF, ih]
        · have h' : ¬ y = x := fun hh => h hh.symm
          simp only [lcsF, if_neg h, if_neg h']
          rw [ih xs (y :: ys), ih (x :: xs) ys]
          exact Nat.max_comm _ _

/-- Longest-common-subsequence length is symmetric. -/
theorem lcs_comm (a b : List Char) : lcs a b = lcs b a := by
  rw [lcs, lcs, Nat.add_comm, lcsF_comm]

/-- The concrete `fuzz.ratio` model is symmetric. -/
theorem fuzzRatio_comm (a b : String) : fuzzRatio a b = fuzzRatio b a := by
  simp only [fuzzRatio, lcs_comm a.data b.data, Nat.add_comm a.length b.length]

/-- Looking a key up after an in-place dict overwrite of key `k`. -/
theorem lookupD_upd {β : Type} (acc : List (String × β)) (k : String) (v : β)
    (k' : String) :
    lookupD (acc.map fun kv => if kv.1 = k then (kv.1, v) else kv) k'
      = if k' = k then (lookupD acc k).map (fun _ => v) else lookupD acc k' := by
  induction acc with
  | nil => simp [lookupD]
  | cons kv rest ih =>
    simp only [lookupD, List.map_cons, List.find?] at ih ⊢
    by_cases h1 : kv.1 = k
    · by_cases h2 : k' = k
      · subst h2
        simp [h1]
      · have hx : ¬ kv.1 = k' := fun hc => h2 (hc.symm.trans h1)
        simp only [if_pos h1, decide_eq_false hx, if_neg h2] at ih ⊢
        simpa [h2] using ih
    · by_cases h2 : kv.1 = k'
      · have hne : ¬ k' = k := fun hc => h1 (h2.trans hc)
        simp [h1, h2, hne]
      · simp only [if_neg h1, decide_eq_false h2]
        by_cases h3 : k' = k
        · subst h3
          simpa [h2, decide_eq_false h1] using ih
        · simpa [h3] using ih

/-- A key is present exactly when `lookupD` succeeds. -/
theorem any_key_iff_lookupD {β : Type} (acc : List (String × β)) (k : String) :
    (acc.any fun kv => kv.1 = k) = true ↔ (lookupD acc k).isSome := by
  induction acc with
  | nil => simp [lookupD]
  | cons kv rest ih =>
    simp only [lookupD, List.any_cons] at ih ⊢
    by_cases h : kv.1 = k
    · rw [List.find?_cons_of_pos _ (by simpa using h)]
      simp [h]
    · rw [List.find?_cons_of_neg _ (by simpa using h)]
      simp only [Bool.or_eq_true, decide_eq_true_eq]
      rw [← ih]
      simp [h]

/-- Dict lookup after `dictSet`. -/
theorem lookupD_dictSet {β : Type} (acc : List (String × β)) (k : String)
    (v : β) (k' : String) :
    lookupD (dictSet acc k v) k'
      = if k' = k then some v else lookupD acc k' := by
  by_cases hany : (acc.any fun kv => kv.1 = k) = true
  · rw [dictSet, if_pos hany, lookupD_upd]
    by_cases h2 : k' = k
    · subst h2
      obtain ⟨w, hw⟩ := Option.isSome_iff_exists.mp ((any_key_iff_lookupD acc k').mp hany)
      simp [hw]
    · simp [h2]
  · have hnone : acc.find? (fun kv => decide (kv.1 = k)) = none := by
      rw [List.find?_eq_none]
      intro kv hkv
      simp only [decide_eq_true_eq]
      intro hc
      exact hany (List.any_eq_true.mpr ⟨kv, hkv, by simpa using hc⟩)
    rw [dictSet, if_neg hany, lookupD, List.find?_append]
    by_cases h2 : k' = k
    · subst h2
      rw [hnone]
      simp [List.find?]
    · have hx : (List.find? (fun kv => decide (kv.1 = k')) [(k, v)]) = none := by
        rw [List.find?_eq_none]
        intro kv hkv
        simp only [List.mem_singleton] at hkv
        subst hkv
        simpa using fun hc : k = k' => h2 hc.symm
      rw [hx, lookupD]
      cases acc.find? fun kv => decide (kv.1 = k') <;> simp [Option.or, h2]

/-- `combineStep` preserves the accumulator invariant. -/
theorem combineStep_inv (ratio : String → String → Nat)
    (acc : List (String × Skill)) (s : Skill) (h : CombInv ratio acc) :
    CombInv ratio (combineStep ratio acc s) := by
  obtain ⟨h1, h2, h3⟩ := h
  rw [combineStep]
  cases hf : acc.find? (fun kv => 85 < ratio (lowerS s.name) kv.1) with
  | some kv0 =>
    simp only []
    refine ⟨?_, ?_, ?_⟩
    · intro kv hkv
      obtain ⟨kv', hkv', hupd⟩ := List.mem_map.mp hkv
      by_cases hc : kv'.1 = kv0.1
      · rw [if_pos hc] at hupd
        rw [← hupd]
        exact h1 kv' hkv'
      · rw [if_neg hc] at hupd
        rw [← hupd]
        exact h1 kv' hkv'
    · rw [List.pairwise_map]
      have h5 : ∀ x : String × Skill,
          (if x.1 = kv0.1 then
            (x.1, { x.2 with sources := x.2.sources ++ [s.type] })
          else x).1 = x.1 := by
        intro x
        by_cases hc : x.1 = kv0.1 <;> simp [hc]
      refine h2.imp_of_mem ?_
      intro a b _ _ hr
      simpa only [h5] using hr
    · intro kv hkv
      obtain ⟨kv', hkv', hupd⟩ := List.mem_map.mp hkv
      by_cases hc : kv'.1 = kv0.1
      · rw [if_pos hc] at hupd
        rw [← hupd]
        simp
      · rw [if_neg hc] at hupd
        rw [← hupd]
        exact h3 kv' hkv'
  | none =>
    simp only [dictSet]
    by_cases hany : (acc.any fun kv => kv.1 = lowerS s.name) = true
    · rw [if_pos hany]
      refine ⟨?_, ?_, ?_⟩
      · intro kv hkv
        obtain ⟨kv', hkv', hupd⟩ := List.mem_map.mp hkv
        by_cases hc : kv'.1 = lowerS s.name
        · rw [if_pos hc] at hupd
          rw [← hupd]
          exact hc
        · rw [if_neg hc] at hupd
          rw [← hupd]
          exact h1 kv' hkv'
      · rw [List.pairwise_map]
        have h5 : ∀ x : String × Skill,
            (if x.1 = lowerS s.name then
              (x.1, { s with sources := [s.type] })
            else x).1 = x.1 := by
          intro x
          by_cases hc : x.1 = lowerS s.name <;> simp [hc]
        refine h2.imp_of_mem ?_
        intro a b _ _ hr
        simpa only [h5] using hr
      · intro kv hkv
        obtain ⟨kv', hkv', hupd⟩ := List.mem_map.mp hkv
        by_cases hc : kv'.1 = lowerS s.name
        · rw [if_pos hc] at hupd
          rw [← hupd]
          simp
        · rw [if_neg hc] at hupd
          rw [← hupd]
          exact h3 kv' hkv'
    · rw [if_neg hany]
      have hle : ∀ kv ∈ acc, ratio (lowerS s.name) kv.1 ≤ 85 := by
        intro kv hkv
        have := List.find?_eq_none.mp hf kv hkv
        simpa using Nat.not_lt.mp (by simpa using this)
      refine ⟨?_, ?_, ?_⟩
      · intro kv hkv
        rcases List.mem_append.mp hkv with hin | hin
        · exact h1 kv hin
        · simp only [List.mem_singleton] at hin
          subst hin
          rfl
      · rw [List.pairwise_append]
        refine ⟨h2, List.pairwise_singleton _ _, ?_⟩
        intro a ha b hb
        simp only [List.mem_singleton] at hb
        subst hb
        exact hle a ha
      · intro kv hkv
        rcases List.mem_append.mp hkv with hin | hin
        · exact h3 kv hin
        · simp only [List.mem_singleton] at hin
          subst hin
          simp

/-- The fold of `combine_skills` preserves the invariant. -/
theorem foldl_combine_inv (ratio : String → String → Nat) (l : List Skill)
    (acc : List (String × Skill)) (h : CombInv ratio acc) :
    CombInv ratio (l.foldl (combineStep ratio) acc) := by
  induction l generalizing acc with
  | nil => exact h
  | cons s rest ih => exact ih _ (combineStep_inv ratio acc s h)

/-- The invariant holds of the final accumulator of `combine_skills`. -/
theorem combine_acc_inv (ratio : String → String → Nat)
    (skillLists : List (List Skill)) :
    CombInv ratio (skillLists.flatten.foldl (combineStep ratio) []) :=
  foldl_combine_inv ratio _ [] ⟨by simp, List.Pairwise.nil, by simp⟩

/-- Closed form of the OCR image loop: with no failing image it appends
every (colorspace-acceptable) image's OCR text; otherwise it stops at the
first failing image, keeping exactly the contributions of the images
before it. -/
theorem runImgs_eq (ocr : Img → Except Unit String) (imgs : List Img)
    (t : String) :
    runImgs ocr imgs t =
      if imgs.all (goodImg ocr) then
        .ok (t ++ concatAll (imgs.map (imgContrib ocr)))
      else
        .error (t ++ concatAll
          ((imgs.takeWhile (goodImg ocr)).map (imgContrib ocr))) := by
  induction imgs generalizing t with
  | nil => simp [runImgs, concatAll]
  | cons i is ih =>
    by_cases hc : i.colorOk
    · cases ho : ocr i with
      | ok s =>
        have hg : goodImg ocr i = true := by simp [goodImg, ho]
        rw [runImgs, if_pos hc, ho]
        dsimp only
        rw [ih]
        simp only [List.all_cons, hg, Bool.true_and, List.takeWhile_cons_of_pos hg,
          List.map_cons, concatAll, List.foldr_cons, imgContrib, if_pos hc, ho]
        by_cases hall : is.all (goodImg ocr) = true <;>
          simp [hall, concatAll, String.append_assoc]
      | error e =>
        have hg : goodImg ocr i = false := by simp [goodImg, ho, hc]
        rw [runImgs, if_pos hc, ho]
        dsimp only
        rw [List.takeWhile_cons_of_neg (by simp [hg])]
        simp [List.all_cons, hg, concatAll]
    · have hg : goodImg ocr i = true := by simp [goodImg, hc]
      have hcontrib : imgContrib ocr i = "" := by simp [imgContrib, hc]
      rw [runImgs, if_neg hc, ih]
      simp only [List.all_cons, hg, Bool.true_and, List.takeWhile_cons_of_pos hg,
        List.map_cons, concatAll, List.foldr_cons, hcontrib, String.empty_append]

/-- Inserting into a sorted list keeps the elements of any one
importance-score class in their original relative order. -/
theorem filter_orderedInsert (q : ℚ) (x : Skill) (l : List Skill) :
    (l.orderedInsert rankGE x).filter (fun s => s.importance_score = q)
      = if x.importance_score = q then
          x :: l.filter (fun s => s.importance_score = q)
        else l.filter (fun s => s.importance_score = q) := by
  induction l with
  | nil =>
    by_cases hx : x.importance_score = q <;>
      simp [List.orderedInsert, List.filter, hx]
  | cons b bs ih =>
    by_cases hr : rankGE x b
    · rw [List.orderedInsert_of_le _ _ hr]
      by_cases hx : x.importance_score = q <;>
        simp [List.filter_cons, hx]
    · have hlt : x.importance_score < b.importance_score :=
        lt_of_not_ge hr
      rw [List.orderedInsert, if_neg hr]
      by_cases hx : x.importance_score = q
      · have hb : ¬ b.importance_score = q := fun hbq => by
          rw [hx, hbq] at hlt
          exact lt_irrefl q hlt
        simp [List.filter_cons, hx, hb, ih]
      · by_cases hb : b.importance_score = q <;>
          simp [List.filter_cons, hx, hb, ih]

/-- Insertion sort by descending importance score is stable: it does not
reorder elements of equal score. -/
theorem filter_insertionSort (q : ℚ) (l : List Skill) :
    (List.insertionSort rankGE l).filter (fun s => s.importance_score = q)
      = l.filter (fun s => s.importance_score = q) := by
  induction l with
  | nil => rfl
  | cons a l ih =>
    rw [List.insertionSort, filter_orderedInsert]
    by_cases ha : a.importance_score = q <;>
      simp [List.filter_cons, ha, ih]

/-- The alias loop is the first match over the alias list. -/
theorem scanAliases_eq (tl : List Char) (as_ : List String) :
    scanAliases tl as_ = as_.find? (fun m => find_skill_in_text m tl) := by
  induction as_ with
  | nil => rfl
  | cons a as_ ih =>
    by_cases h : find_skill_in_text a tl
    · rw [scanAliases, if_pos h, List.find?_cons_of_pos _ (by simpa using h)]
    · rw [scanAliases, if_neg h, List.find?_cons_of_neg _ (by simpa using h), ih]

/-- The per-table loop of `extract_rule_based` is a `filterMap`: each
entry yields at most one candidate, produced from the first matching
string among its canonical name and aliases. -/
theorem tableScan_eq (tag : String) (tl : List Char) (table : List DbEntry) :
    tableScan tag tl table = table.filterMap (ruleHit tag tl) := by
  induction table with
  | nil => rfl
  | cons e es ih =>
    by_cases h : find_skill_in_text e.cname tl
    · rw [tableScan, if_pos h, List.filterMap_cons, ih, ruleHit,
        List.find?_cons_of_pos _ (by simpa using h)]
      simp
    · rw [tableScan, if_neg h, scanAliases_eq, List.filterMap_cons, ruleHit,
        List.find?_cons_of_neg _ (by simpa using h)]
      cases hfind : e.aliases.find? (fun m => find_skill_in_text m tl) <;>
        simp [hfind, ih]

/-- Closed form of the per-skill confidence computation (the running
accumulator of `calculate_confidence`, written as one formula). -/
theorem scoreSkill_eq (tl : List Char) (s : Skill) :
    scoreSkill tl s
      = { s with confidence :=
                   min (60 + min (5 * pyCount (lowerL s.name.data) tl) 20
                     + 10 * s.sources.length
                     + (if proficiencyHit (lowerL s.name.data) tl then 15 else 0)
                     + (if skillsSectionHit (lowerL s.name.data) tl then 10 else 0))
                   95 } := by
  simp only [scoreSkill]
  rw [Nat.mul_comm (pyCount (lowerL s.name.data) tl) 5,
    Nat.mul_comm s.sources.length 10]

/-- Relates the dict built by the `extract_sections` loop to the flush
sequence: the value stored under a key is the newline-join of the *last*
flushed block for that key (later flushes overwrite earlier ones). -/
theorem sectionsAux_blocks (ls : List String) (acc : List (String × String))
    (cur : String) (buf : List String) (k : String) :
    lookupD (sectionsAux ls acc cur buf) k
      = (((blocksAux ls cur buf).filter (fun b => b.1 = k)).getLast?).elim
          (lookupD acc k) (fun b => some (joinNL b.2)) := by
  induction ls generalizing acc cur buf with
  | nil =>
    by_cases hbuf : buf = []
    · subst hbuf
      simp [sectionsAux, blocksAux]
    · rw [sectionsAux, if_pos hbuf, blocksAux, if_pos hbuf,
        lookupD_dictSet]
      by_cases hk : k = cur
      · subst hk
        simp [List.filter]
      · have : ¬ cur = k := fun hc => hk hc.symm
        simp [List.filter, this, hk]
  | cons l ls ih =>
    cases hh : headerOf l with
    | some h =>
      rw [sectionsAux, blocksAux]
      simp only [hh]
      rw [ih, List.filter_append, List.getLast?_append]
      cases hB : ((blocksAux ls (underscore h) []).filter
          (fun b => b.1 = k)).getLast? with
      | some b => simp [Option.or]
      | none =>
        simp only [Option.or, Option.elim_none]
        by_cases hbuf : buf = []
        · subst hbuf
          simp [List.filter]
        · rw [if_pos hbuf, if_pos hbuf, lookupD_dictSet]
          by_cases hk : k = cur
          · subst hk
            simp [List.filter]
          · have : ¬ cur = k := fun hc => hk hc.symm
            simp [List.filter, this, hk]
    | none =>
      rw [sectionsAux, blocksAux]
      simp only [hh]
      by_cases hstrip : stripPy l.data ≠ []
      · rw [if_pos hstrip, if_pos hstrip, ih]
      · rw [if_neg hstrip, if_neg hstrip, ih]

/-- Every flushed block has a non-empty body all of whose lines are
non-blank (blank lines are never buffered). -/
theorem blocksAux_bodies (ls : List String) (cur : String) (buf : List String)
    (hbuf : ∀ l ∈ buf, stripPy l.data ≠ []) :
    ∀ b ∈ blocksAux ls cur buf,
      b.2 ≠ [] ∧ ∀ l ∈ b.2, stripPy l.data ≠ [] := by
  induction ls generalizing cur buf with
  | nil =>
    intro b hb
    rw [blocksAux] at hb
    by_cases hb0 : buf = []
    · simp [hb0] at hb
    · rw [if_pos hb0] at hb
      simp only [List.mem_singleton] at hb
      subst hb
      exact ⟨hb0, hbuf⟩
  | cons l ls ih =>
    intro b hb
    rw [blocksAux] at hb
    cases hh : headerOf l with
    | some h =>
      rw [hh] at hb
      rcases List.mem_append.mp hb with hin | hin
      · by_cases hb0 : buf = []
        · simp [hb0] at hin
        · rw [if_pos hb0] at hin
          simp only [List.mem_singleton] at hin
          subst hin
          exact ⟨hb0, hbuf⟩
      · exact ih (underscore h) [] (by simp) b hin
    | none =>
      rw [hh] at hb
      by_cases hstrip : stripPy l.data ≠ []
      · rw [if_pos hstrip] at hb
        refine ih cur (buf ++ [l]) ?_ b hb
        intro l' hl'
        rcases List.mem_append.mp hl' with hin | hin
        · exact hbuf l' hin
        · simp only [List.mem_singleton] at hin
          subst hin
          exact hstrip
      · rw [if_neg hstrip] at hb
        exact ih cur buf hbuf b hb

/-! ## Claim theorems -/

/-- C5: `CVParser.parse` raises its unsupported-format error exactly when
the lower-cased final extension of the filename is outside
{pdf, doc, docx, txt}; in particular a `.exe` upload is rejected by the
synchronous validation (`INVALID_FILE`, no job created) and the parser
would reject it too. -/
theorem claim_C5 :
    (∀ (content : List Nat) (filename : String),
      isErr (parse content filename) = true
        ↔ fileExtension filename ∉ (["pdf", "doc", "docx", "txt"] : List String))
    ∧ parse [] "cv.exe" = .error "exe"
    ∧ upload_cv "cv.exe" = .rejected "INVALID_FILE" := by
  refine ⟨?_, by rfl, by decide⟩
  intro content filename
  rw [parse]
  by_cases h1 : fileExtension filename = "pdf"
  · simp [h1, isErr]
  · by_cases h2 : fileExtension filename = "doc"
    · simp [h1, h2, isErr]
    · by_cases h3 : fileExtension filename = "docx"
      · simp [h1, h2, h3, isErr]
      · by_cases h4 : fileExtension filename = "txt"
        · simp [h1, h2, h3, h4, isErr]
        · simp [h1, h2, h3, h4, isErr]

/-- C2 (counterexample): when one strategy contributes two near-duplicate
candidates (`python`, `pythons`, similarity 92), the merged skill's
`sources` holds the strategy twice and the code adds 10 per *entry*
(confidence 85), while the claim's distinct-strategy count yields 75. -/
theorem claim_C2_cex :
    (calculate_confidence (combine_skills fuzzRatio [[candPython, candPythons]])
        "python").map (fun s => s.confidence) = [85]
    ∧ (calculate_confidence (combine_skills fuzzRatio [[candPython, candPythons]])
        "python").map (fun s => claimConfidence s "python") = [75]
    ∧ (85 : Nat) ≠ 75 := by
  refine ⟨by decide, by decide, by decide⟩

/-- C2 (amended): the confidence of every skill equals the clamp to at
most 95 of 60 + min(5 × occurrences, 20) + 10 × the *length of the
sources list* (strategies counted with multiplicity) + 15 for an adjacent
proficiency qualifier + 10 for the skills-section regex hit; every
produced confidence is at most 95 (and trivially at least 0 in `ℕ`). -/
theorem claim_C2_amended (skills : List Skill) (text : String) :
    calculate_confidence skills text
      = skills.map (fun s =>
          { s with confidence :=
                     min (60 + min (5 * pyCount (lowerL s.name.data) (lowerL text.data)) 20
                       + 10 * s.sources.length
                       + (if proficiencyHit (lowerL s.name.data) (lowerL text.data) then 15 else 0)
                       + (if skillsSectionHit (lowerL s.name.data) (lowerL text.data) then 10 else 0))
                     95 })
    ∧ ∀ s ∈ calculate_confidence skills text, s.confidence ≤ 95 := by
  constructor
  · rw [calculate_confidence]
    exact List.map_congr_left fun s _ => scoreSkill_eq (lowerL text.data) s
  · intro s hs
    rw [calculate_confidence] at hs
    obtain ⟨s0, _, rfl⟩ := List.mem_map.mp hs
    rw [scoreSkill_eq]
    exact Nat.min_le_right _ _

/-- C2 (witness): the amended theorem applied to a concrete candidate and
text. -/
theorem claim_C2_witness : candPythonScored.confidence ≤ 95 :=
  (claim_C2_amended [candPythonRule] "python").2 candPythonScored (by decide)

/-- C4 (counterexample): for a text whose `skills` header occurs twice,
the body lines accumulated under that key across both occurrences are
`Python` then `Docker`, but the returned mapping binds `skills` to
`"Docker"` only — the second flush overwrites the first instead of
concatenating. -/
theorem claim_C4_cex :
    lookupD (extract_sections overwriteText) "skills" = some "Docker"
    ∧ ((sectionBlocks overwriteText).filter (fun b => b.1 = "skills")).flatMap
        (fun b => b.2) = ["Python", "Docker"]
    ∧ some "Docker" ≠ some (joinNL ["Python", "Docker"]) := by
  refine ⟨by decide, by decide, by decide⟩

/-- C6 (counterexample): on a one-page scanned PDF with two images where
OCR raises on the first image and reads `Java` from the second, the
extraction phase returns only the page-break newline — the failing image
is not skipped, and the text of the remaining image is lost. -/
theorem claim_C6_cex :
    muPdfText ocrJava [scannedPage] "" = "\n"
    ∧ containsSub "Java".data "\n".data = false
    ∧ isErr (ocrJava ⟨0, true⟩) = true
    ∧ ocrJava ⟨1, true⟩ = .ok "Java" := by
  refine ⟨by decide, by decide, by decide, by rfl⟩

/-- C8 (counterexample): the text `"AWS Certified."` contains the
canonical name of the `certifications` entry `AWS Certified` as a whole
word, yet the rule-based generator emits no candidate at all — the
certifications table is never scanned. -/
theorem claim_C8_cex :
    extract_rule_based "AWS Certified." = []
    ∧ find_skill_in_text "AWS Certified" (lowerL ("AWS Certified.".data)) = true
    ∧ certifications.any (fun e => e.cname = "AWS Certified") = true := by
  refine ⟨by decide, by decide, by decide⟩

/-- C8 (amended): the rule-based generator scans exactly the
`technical_skills` and `soft_skills` tables (not `certifications`); per
entry it emits at most one candidate, produced from the first string
among {canonical name, aliases…} that matches as a whole word, and the
candidate records a string that literally matched the text. -/
theorem claim_C8_amended :
    (∀ text : String,
      extract_rule_based text
        = technical_skills.filterMap (ruleHit "technical" (lowerL text.data))
          ++ soft_skills.filterMap (ruleHit "soft" (lowerL text.data)))
    ∧ ∀ (text : String) (s : Skill), s ∈ extract_rule_based text →
        ∃ m, s.matched_text = some m
          ∧ find_skill_in_text m (lowerL text.data) = true := by
  have heq : ∀ text : String,
      extract_rule_based text
        = technical_skills.filterMap (ruleHit "technical" (lowerL text.data))
          ++ soft_skills.filterMap (ruleHit "soft" (lowerL text.data)) := by
    intro text
    rw [extract_rule_based]
    rw [tableScan_eq, tableScan_eq]
  refine ⟨heq, ?_⟩
  intro text s hs
  rw [heq] at hs
  rcases List.mem_append.mp hs with hin | hin <;>
  · obtain ⟨e, _, he⟩ := List.mem_filterMap.mp hin
    rw [ruleHit] at he
    obtain ⟨m, hm, rfl⟩ := Option.map_eq_some'.mp he
    exact ⟨m, rfl, by simpa using List.find?_some hm⟩

/-- C8 (witness): the amended theorem applied to the §8 example text and
its Python candidate. -/
theorem claim_C8_witness :
    ∃ m, candPythonRule.matched_text = some m
      ∧ find_skill_in_text m (lowerL c1Text.data) = true :=
  claim_C8_amended.2 c1Text candPythonRule (by decide)

/-- C9: every candidate the pattern-based generator emits is a stripped
delimiter-split token of a skills-labeled block, of length between 3 and
49; and on `"SKILLS: Python, Docker; Leadership"` it yields exactly
`Python`, `Docker`, `Leadership`. -/
theorem claim_C9 :
    (∀ (text : String) (s : Skill), s ∈ extract_pattern_based text →
      ∃ g, g ∈ scanMatches text.data ∧ ∃ item, item ∈ splitOnP isDelim g ∧
        s.name.data = stripPy item ∧ 3 ≤ s.name.length ∧ s.name.length ≤ 49)
    ∧ (extract_pattern_based "SKILLS: Python, Docker; Leadership").map
        (fun s => s.name) = ["Python", "Docker", "Leadership"] := by
  refine ⟨?_, by decide⟩
  intro text s hs
  rw [extract_pattern_based] at hs
  obtain ⟨g, hg, hmem⟩ := List.mem_flatMap.mp hs
  rw [patternItems] at hmem
  obtain ⟨item, hitem, hval⟩ := List.mem_filterMap.mp hmem
  by_cases hlen : 2 < (stripPy item).length ∧ (stripPy item).length < 50
  · rw [if_pos hlen] at hval
    obtain rfl := Option.some.inj hval
    obtain ⟨hl1, hl2⟩ := hlen
    refine ⟨g, hg, item, hitem, rfl, ?_, ?_⟩
    · show 3 ≤ (String.mk (stripPy item)).length
      rw [String.length_mk]
      omega
    · show (String.mk (stripPy item)).length ≤ 49
      rw [String.length_mk]
      omega
  · rw [if_neg hlen] at hval
    exact absurd hval (by simp)

/-- C9 (witness): the structural description applied to the example text
and its first candidate. -/
theorem claim_C9_witness :
    ∃ g, g ∈ scanMatches ("SKILLS: Python, Docker; Leadership" : String).data
      ∧ ∃ item, item ∈ splitOnP isDelim g ∧
        patPython.name.data = stripPy item ∧ 3 ≤ patPython.name.length
          ∧ patPython.name.length ≤ 49 :=
  claim_C9.1 "SKILLS: Python, Docker; Leadership" patPython (by decide)

/-- C3: for any symmetric similarity measure, no two distinct skills in
the merge output have lower-cased names more than 85-similar; and a
candidate whose key is more than 85-similar to an accepted key is merged
into the existing entries (the dict keys and entry count are unchanged —
the first-seen names are kept and nothing new is added). -/
theorem claim_C3 :
    (∀ ratio : String → String → Nat,
      (∀ a b, ratio a b = ratio b a) →
      ∀ (skillLists : List (List Skill)) (i j : Nat),
        i < (combine_skills ratio skillLists).length →
        j < (combine_skills ratio skillLists).length →
        i ≠ j →
        ratio (lowerS (((combine_skills ratio skillLists).getD i default).name))
          (lowerS (((combine_skills ratio skillLists).getD j default).name)) ≤ 85)
    ∧ ∀ (ratio : String → String → Nat) (acc : List (String × Skill)) (s : Skill),
        (acc.any fun kv => 85 < ratio (lowerS s.name) kv.1) = true →
        (combineStep ratio acc s).map (fun kv => kv.1) = acc.map (fun kv => kv.1)
        ∧ (combineStep ratio acc s).length = acc.length := by
  constructor
  · intro ratio hsym lists i j hi hj hne
    obtain ⟨h1, h2, _⟩ := combine_acc_inv ratio lists
    have hleni : i < (lists.flatten.foldl (combineStep ratio) []).length := by
      simpa [combine_skills] using hi
    have hlenj : j < (lists.flatten.foldl (combineStep ratio) []).length := by
      simpa [combine_skills] using hj
    have hget : ∀ (m : Nat) (hm : m < (combine_skills ratio lists).length)
        (hm' : m < (lists.flatten.foldl (combineStep ratio) []).length),
        lowerS (((combine_skills ratio lists).getD m default).name)
          = ((lists.flatten.foldl (combineStep ratio) []).get ⟨m, hm'⟩).1 := by
      intro m hm hm'
      rw [List.getD_eq_getElem _ _ hm]
      simp only [combine_skills, List.getElem_map]
      exact (h1 _ (List.getElem_mem hm')).symm
    rw [hget i hi hleni, hget j hj hlenj]
    have hpw := List.pairwise_iff_getElem.mp h2
    rcases Nat.lt_trichotomy i j with hlt | heq | hlt
    · rw [hsym]
      exact hpw i j hleni hlenj hlt
    · exact absurd heq hne
    · exact hpw j i hlenj hleni hlt
  · intro ratio acc s hany
    obtain ⟨kv, hkv, hp⟩ := List.any_eq_true.mp hany
    simp only [combineStep]
    cases hf : acc.find? (fun kv => 85 < ratio (lowerS s.name) kv.1) with
    | none =>
      exact absurd (by simpa using List.find?_eq_none.mp hf kv hkv)
        (by simpa using hp)
    | some kv0 =>
      constructor
      · rw [List.map_map]
        refine List.map_congr_left ?_
        intro kv' _
        by_cases hc : kv'.1 = kv0.1 <;> simp [hc]
      · rw [List.length_map]

/-- C3 (witness): the dedup invariant instantiated with the concrete
`fuzz.ratio` model, two rule candidates, and indices 0 and 1. -/
theorem claim_C3_witness :
    fuzzRatio
      (lowerS (((combine_skills fuzzRatio [[candPythonRule, candReactRule]]).getD
        0 default).name))
      (lowerS (((combine_skills fuzzRatio [[candPythonRule, candReactRule]]).getD
        1 default).name)) ≤ 85 :=
  claim_C3.1 fuzzRatio fuzzRatio_comm [[candPythonRule, candReactRule]] 0 1
    (by decide) (by decide) (by decide)

/-- C10: every skill leaving the merge-then-score stages has a non-empty
source list, so its confidence lies in [70, 95] — strictly inside the
spec's stated [0, 95]. -/
theorem claim_C10 (ratio : String → String → Nat)
    (skillLists : List (List Skill)) (text : String) :
    ∀ s ∈ calculate_confidence (combine_skills ratio skillLists) text,
      s.sources ≠ [] ∧ 70 ≤ s.confidence ∧ s.confidence ≤ 95 := by
  intro s hs
  obtain ⟨_, _, h3⟩ := combine_acc_inv ratio skillLists
  rw [calculate_confidence] at hs
  obtain ⟨s0, hs0, rfl⟩ := List.mem_map.mp hs
  simp only [combine_skills] at hs0
  obtain ⟨kv, hkv, rfl⟩ := List.mem_map.mp hs0
  have hsrc : kv.2.sources ≠ [] := h3 kv hkv
  have hL : 1 ≤ kv.2.sources.length := List.length_pos.mpr hsrc
  refine ⟨hsrc, ?_, ?_⟩
  · rw [scoreSkill_eq]
    refine Nat.le_min.mpr ⟨?_, by norm_num⟩
    generalize min (5 * pyCount (lowerL kv.2.name.data) (lowerL text.data)) 20 = A
    generalize (if proficiencyHit (lowerL kv.2.name.data) (lowerL text.data)
      then 15 else 0) = B
    generalize (if skillsSectionHit (lowerL kv.2.name.data) (lowerL text.data)
      then 10 else 0) = C
    omega
  · rw [scoreSkill_eq]
    exact Nat.min_le_right _ _

/-- C10 (witness): the bound at a concrete merged-and-scored skill. -/
theorem claim_C10_witness :
    candPythonMerged.sources ≠ [] ∧ 70 ≤ candPythonMerged.confidence
      ∧ candPythonMerged.confidence ≤ 95 :=
  claim_C10 fuzzRatio [[candPythonRule]] "python" candPythonMerged (by decide)

/-- C6 (amended): the OCR loop appends text image by image until the
first failing image; a failure aborts the loop — and, through the
method-level `except`, the rest of the page loop — keeping exactly the
text accumulated before the failure (so text of images after the failing
one, and of later pages, is lost, while text from before is retained). -/
theorem claim_C6_amended :
    (∀ (ocr : Img → Except Unit String) (imgs : List Img) (t : String),
      runImgs ocr imgs t
        = if imgs.all (goodImg ocr) then
            .ok (t ++ concatAll (imgs.map (imgContrib ocr)))
          else
            .error (t ++ concatAll
              ((imgs.takeWhile (goodImg ocr)).map (imgContrib ocr))))
    ∧ ∀ (ocr : Img → Except Unit String) (p : Page) (ps : List Page)
        (t e : String),
        p.images ≠ [] → stripPy (t ++ p.text ++ "\n").data = [] →
        runImgs ocr p.images (t ++ p.text ++ "\n") = .error e →
        muPdfText ocr (p :: ps) t = e := by
  refine ⟨runImgs_eq, ?_⟩
  intro ocr p ps t e hne hblank hrun
  rw [muPdfText, runPages]
  rw [if_pos ⟨hne, hblank⟩, hrun]

/-- C6 (witness): the abort behaviour at the concrete scanned page — the
following page (`pageTail`) contributes nothing. -/
theorem claim_C6_witness : muPdfText ocrJava [scannedPage, pageTail] "" = "\n" :=
  claim_C6_amended.2 ocrJava scannedPage [pageTail] "" "\n" (by decide)
    (by decide) (by rfl)

/-- C4 (amended): each section key is bound to the newline-join of the
body lines accumulated under the *most recent* completed occurrence of a
matching header with a non-empty body (later occurrences overwrite
earlier ones, they are not concatenated); blank lines are excluded from
bodies, the final buffer is flushed at end of input, and lines before the
first header fall under the implicit `header` key (encoded in
`sectionBlocks`, which also applies the first-matching-label rule). -/
theorem claim_C4_amended :
    (∀ text k : String,
      lookupD (extract_sections text) k
        = (((sectionBlocks text).filter (fun b => b.1 = k)).getLast?).map
            (fun b => joinNL b.2))
    ∧ ∀ (text : String) (b : String × List String), b ∈ sectionBlocks text →
        b.2 ≠ [] ∧ ∀ l ∈ b.2, stripPy l.data ≠ [] := by
  constructor
  · intro text k
    rw [extract_sections, sectionBlocks, sectionsAux_blocks]
    cases ((blocksAux ((splitOnP (· = '\n') text.data).map String.mk)
        "header" []).filter (fun b => b.1 = k)).getLast? with
    | none => simp [lookupD]
    | some b => simp
  · intro text b hb
    rw [sectionBlocks] at hb
    exact blocksAux_bodies _ _ [] (by simp) b hb

/-- C4 (witness): the body-lines property at a concrete flushed block. -/
theorem claim_C4_witness : (("skills", ["Python"]) : String × List String).2 ≠ [] :=
  (claim_C4_amended.2 overwriteText ("skills", ["Python"]) (by decide)).1

/-- The ranking score of the merged Leadership skill: its bare confidence
(no technical-category boost, no importance-weight boost). -/
theorem importanceOf_leadership : importanceOf leadershipSkill = 80 := by decide

/-- The ranking score of the scored Python skill: 90 × 6/5 + 10 × 5. -/
theorem importanceOf_pyScored : importanceOf pyScored = 158 := by
  have hfind : technical_skills.find? (fun e => e.cname = pyScored.name)
      = some ⟨"Python", ["python3", "py"], some "programming", 10⟩ := by decide
  simp only [importanceOf, hfind]
  rw [if_pos (by decide : pyScored.category ∈
    [some "programming", some "web", some "data", some "ai"])]
  norm_num [pyScored]

/-- The ranking score of the scored React skill: 75 × 6/5 + 8 × 5. -/
theorem importanceOf_reScored : importanceOf reScored = 130 := by
  have hfind : technical_skills.find? (fun e => e.cname = reScored.name)
      = some ⟨"React", ["react.js", "reactjs"], some "web", 8⟩ := by decide
  simp only [importanceOf, hfind]
  rw [if_pos (by decide : reScored.category ∈
    [some "programming", some "web", some "data", some "ai"])]
  norm_num [reScored]

/-- C7 (counterexample): `Leadership` is a canonical taxonomy entry (the
`soft_skills` table declares importance 8), so the claim's reading gives
importance 80 + 5 × 8 = 120; the code consults only the
`technical_skills` table and leaves the score at 80. -/
theorem claim_C7_cex :
    (rank_skills [leadershipSkill]).map (fun s => s.importance_score) = [(80 : ℚ)]
    ∧ claimRankScore leadershipSkill = 120
    ∧ (80 : ℚ) ≠ 120 := by
  refine ⟨?_, ?_, by norm_num⟩
  · rw [rank_skills]
    simp [List.insertionSort, List.orderedInsert, importanceOf_leadership]
  · have hfind : all_taxonomy.find? (fun e => e.cname = leadershipSkill.name)
        = some ⟨"Leadership", ["team lead", "management"], none, 8⟩ := by decide
    simp only [claimRankScore, hfind]
    rw [if_neg (by decide : ¬ leadershipSkill.category ∈
      [some "programming", some "web", some "data", some "ai"])]
    norm_num [leadershipSkill]

/-- C7 (amended): ranking stores on every skill the importance score
`confidence × 1.2 (if the category is technical) + 5 × weight (if the
name is a canonical entry of the technical_skills table — soft-skill and
certification entries get no weight boost)`, then sorts descending by
that score with a stable sort: the output is sorted, is a permutation of
the scored input, and elements of equal score keep their input order. -/
theorem claim_C7_amended (skills : List Skill) :
    (∀ s ∈ rank_skills skills, s.importance_score = importanceOf s)
    ∧ List.Sorted rankGE (rank_skills skills)
    ∧ (∀ q : ℚ,
        (rank_skills skills).filter (fun s => s.importance_score = q)
          = (skills.map fun s => { s with importance_score := importanceOf s }).filter
              (fun s => s.importance_score = q))
    ∧ (rank_skills skills).Perm
        (skills.map fun s => { s with importance_score := importanceOf s }) := by
  refine ⟨?_, ?_, ?_, ?_⟩
  · intro s hs
    rw [rank_skills] at hs
    have hs' := (List.perm_insertionSort rankGE _).mem_iff.mp hs
    obtain ⟨s0, _, rfl⟩ := List.mem_map.mp hs'
    rfl
  · rw [rank_skills]
    exact List.sorted_insertionSort rankGE _
  · intro q
    rw [rank_skills]
    exact filter_insertionSort q _
  · rw [rank_skills]
    exact List.perm_insertionSort rankGE _

/-- C7 (witness): the score equation at the concrete ranked Leadership
skill. -/
theorem claim_C7_witness :
    leadershipRanked.importance_score = importanceOf leadershipRanked := by
  refine (claim_C7_amended [leadershipSkill]).1 leadershipRanked ?_
  rw [rank_skills]
  simp [List.insertionSort, List.orderedInsert, importanceOf_leadership,
    leadershipRanked]

/-- The §8 example text after rule/model/pattern generation, merge and
confidence scoring: exactly Python (confidence 90) and React (75). -/
theorem c1_stage :
    calculate_confidence (combine_skills fuzzRatio
      [extract_rule_based c1Text, [], extract_pattern_based c1Text]) c1Text
    = [pyScored, reScored] := by decide

/-- C1 (counterexample): the full pipeline on the §8 example text yields
two merged skills, not the three the claim expects — `AWS Certified` is
never produced, because the rule-based generator does not scan the
`certifications` table and no other generator matches it. -/
theorem claim_C1_cex :
    (extract fuzzRatio c1Text).length = 2 ∧ (2 : Nat) ≠ 3 := by
  constructor
  · rw [extract, c1_stage, rank_skills]
    rw [(List.perm_insertionSort rankGE _).length_eq]
    rfl
  · decide

/-- C1 (amended): on the §8 example text the pipeline outputs exactly two
merged skills, Python (category `programming`, confidence 90, importance
158) ranked ahead of React (category `web`, confidence 75, importance
130), each with confidence at least 75. -/
theorem claim_C1_amended :
    extract fuzzRatio c1Text = [pyRanked, reRanked]
    ∧ (extract fuzzRatio c1Text).all
        (fun s => decide (75 ≤ s.confidence)) = true := by
  have hmain : extract fuzzRatio c1Text = [pyRanked, reRanked] := by
    rw [extract, c1_stage, rank_skills]
    simp only [List.map_cons, List.map_nil]
    rw [importanceOf_pyScored, importanceOf_reScored]
    rw [List.insertionSort, List.insertionSort, List.insertionSort]
    rw [List.orderedInsert, List.orderedInsert_of_le _ _ (by
      show rankGE _ _
      rw [rankGE]
      norm_num)]
    rfl
  exact ⟨hmain, by rw [hmain]; decide⟩

end CVPipeline
